import Mathlib

/-
Verification of the Word Wizard wordlist generator (src/word_wizard.py).

Python strings are modelled as lists of characters (Str := List Char);
Python str methods (upper, lower, capitalize, isupper, islower, isalpha,
isdigit) are modelled with their ASCII semantics, which is what the
generator relies on for its candidate transformations.  Python sets are
modelled as first-seen-order deduplicated lists; all set-level claims are
stated through list membership, which is independent of iteration order.
-/

namespace WordWizard

abbrev Str := List Char

/-! ### Character-level helpers (ASCII semantics of Python str methods) -/

/-- ch.upper() for a single character (ASCII). -/
def upperC (c : Char) : Char :=
  if 97 ≤ c.toNat ∧ c.toNat ≤ 122 then Char.ofNat (c.toNat - 32) else c

/-- ch.lower() for a single character (ASCII). -/
def lowerC (c : Char) : Char :=
  if 65 ≤ c.toNat ∧ c.toNat ≤ 90 then Char.ofNat (c.toNat + 32) else c

/-- ch.isupper() for a single character (ASCII cased characters). -/
def isUpperC (c : Char) : Bool := decide (65 ≤ c.toNat ∧ c.toNat ≤ 90)

/-- ch.islower() for a single character (ASCII cased characters). -/
def isLowerC (c : Char) : Bool := decide (97 ≤ c.toNat ∧ c.toNat ≤ 122)

/-- ch.isalpha() (ASCII). -/
def isAlphaC (c : Char) : Bool := isUpperC c || isLowerC c

/-- A digit character, as matched by the regex d-class on ASCII input. -/
def isDigitC (c : Char) : Bool := decide (48 ≤ c.toNat ∧ c.toNat ≤ 57)

/-- A word character, as matched by the regex w-class on ASCII input
(letters, digits and the underscore, code 95). -/
def wordC (c : Char) : Bool := isAlphaC c || isDigitC c || decide (c.toNat = 95)

/-! ### Generic list machinery: first-seen deduplication and insertion sort -/

/-- First-seen-order deduplication loop of WordlistEngine.uniq: seen-set plus
output list.  The seen set is modelled as the list of already-kept elements. -/
def uniqGo {α : Type} [DecidableEq α] (seen : List α) : List α → List α
  | [] => []
  | w :: rest => if w ∈ seen then uniqGo seen rest else w :: uniqGo (w :: seen) rest

/-- WordlistEngine.uniq: deduplicate preserving first occurrences. -/
def uniq {α : Type} [DecidableEq α] (l : List α) : List α := uniqGo [] l

/-- Insert into a sorted list, as in Python sorted (insertion-sort model). -/
def insSorted {α : Type} (le : α → α → Bool) (x : α) : List α → List α
  | [] => [x]
  | y :: ys => if le x y then x :: y :: ys else y :: insSorted le x ys

/-- Sorted sequence of a list, as produced by Python sorted. -/
def sortBy {α : Type} (le : α → α → Bool) : List α → List α
  | [] => []
  | x :: xs => insSorted le x (sortBy le xs)

/-- Strict lexicographic order on strings, characters compared by code point. -/
def lexLtB : Str → Str → Bool
  | [], [] => false
  | [], _ :: _ => true
  | _ :: _, [] => false
  | a :: as, b :: bs => if a < b then true else if a = b then lexLtB as bs else false

/-- Lexicographic less-or-equal on strings, characters compared by code point
(the comparison used by Python sorted on strings). -/
def lexLeB : Str → Str → Bool
  | [], _ => true
  | _ :: _, [] => false
  | a :: as, b :: bs => if a < b then true else if b < a then false else lexLeB as bs


/-- SEP_SET: the default separator list. -/
def SEP_SET : List Str :=
  [[' '], ['_'], ['-'], ['.'], ['/'], ['!'], ['@'], ['#'], ['$'], ['%'], ['?'], [',']]

/-- VOWELS = "aeiouyAEIOUY". -/
def VOWELS : Str := ['a', 'e', 'i', 'o', 'u', 'y', 'A', 'E', 'I', 'O', 'U', 'Y']

/-- Options dataclass, with the Python default field values. -/
structure Options where
  min_len : Nat := 6
  max_len : Nat := 20
  separators : List Str := SEP_SET
  add_leet : Bool := true
  add_casing : Bool := true
  add_separators : Bool := true
  cap_first : Bool := false
  cap_last : Bool := false
  add_prefix_suffix : Str := ['!', '@', '#', '$', '%', '?']
  duplicate_vowels : Bool := false
  reverse_words : Bool := false
  numeric_only : Bool := false
  exact_digits : Nat := 0
  add_variants : Bool := false
deriving DecidableEq

/-- Options.validate: the conjunction of checks that must not raise. -/
def Options.valid (o : Options) : Prop :=
  o.min_len ≤ o.max_len ∧
  1 ≤ o.min_len ∧ o.min_len ≤ 128 ∧ 1 ≤ o.max_len ∧ o.max_len ≤ 128 ∧
  (o.numeric_only = true → 1 ≤ o.exact_digits)

instance (o : Options) : Decidable o.valid := by
  unfold Options.valid
  infer_instance

/-- WordlistEngine.LEET: str.maketrans("aAeEiIoOsS", "@4€3!1¡0$5"),
read pointwise from the two translation strings. -/
def LEET (c : Char) : Char :=
  if c = 'a' then '@'
  else if c = 'A' then '4'
  else if c = 'e' then '€'
  else if c = 'E' then '3'
  else if c = 'i' then '!'
  else if c = 'I' then '1'
  else if c = 'o' then '¡'
  else if c = 'O' then '0'
  else if c = 's' then '$'
  else if c = 'S' then '5'
  else c

/-- The substitution table as the specification states it (a and A both to @,
e to the euro sign, E to 3, i to !, I to 1, o to the inverted exclamation
mark, O to 0, s to the dollar sign, S to 5); written from the spec wording
only, to be compared with LEET, which is read from the source. -/
def LEETClaim (c : Char) : Char :=
  if c = 'a' then '@'
  else if c = 'A' then '@'
  else if c = 'e' then '€'
  else if c = 'E' then '3'
  else if c = 'i' then '!'
  else if c = 'I' then '1'
  else if c = 'o' then '¡'
  else if c = 'O' then '0'
  else if c = 's' then '$'
  else if c = 'S' then '5'
  else c

/-- A calendar date (only the numeric fields used by strftime here). -/
structure Date where
  day : Nat
  month : Nat
  year : Nat

/-- Zero-padded decimal rendering to at least k digits (strftime numeric field). -/
def padNum (k n : Nat) : Str :=
  let ds := Nat.toDigits 10 n
  List.replicate (k - ds.length) '0' ++ ds

/-- WordlistEngine. dates, for one date: [dd, mm, yy, yyyy, dd+mm, mm+dd,
dd+mm+yy, dd+mm+yyyy, yyyy+mm+dd]. -/
def dateFrags (d : Date) : List Str :=
  let dd := padNum 2 d.day
  let mm := padNum 2 d.month
  let yy := padNum 2 (d.year % 100)
  let yyyy := padNum 4 d.year
  [dd, mm, yy, yyyy, dd ++ mm, mm ++ dd, dd ++ mm ++ yy, dd ++ mm ++ yyyy, yyyy ++ mm ++ dd]

/-- WordlistEngine. dates over the whole date list, in order. -/
def datesOf (dates : List Date) : List Str := dates.flatMap dateFrags

/-- The constructor filter: self.words = [w for w in words if w]. -/
def filterWords (words : List Str) : List Str := words.filter (fun w => !w.isEmpty)

/-! ### Combiner (WordlistEngine. combine) -/

/-- All ways to pick one element out of a list, returning it with the rest. -/
def picks {α : Type} : List α → List (α × List α)
  | [] => []
  | x :: xs => (x, xs) :: (picks xs).map (fun p => (p.1, x :: p.2))

/-- itertools.permutations(items, r): ordered arrangements of r positions. -/
def perms {α : Type} : Nat → List α → List (List α)
  | 0, _ => [[]]
  | r + 1, l => (picks l).flatMap (fun p => (perms r p.2).map (fun t => p.1 :: t))

/-- WordlistEngine. combine: arrangements of 1..min(4, n) items, joined with
each separator when separators are enabled, plainly concatenated otherwise. -/
def combine (o : Options) (items : List Str) : List Str :=
  (List.range' 1 (min 4 items.length)).flatMap (fun r =>
    (perms r items).flatMap (fun prod =>
      if o.add_separators then o.separators.map (fun s => List.intercalate s prod)
      else [prod.flatten]))

/-! ### Mutator (WordlistEngine. mutate) -/

/-- re.sub(f"([{VOWELS}])", the raw replacement text of four characters
backslash-1-backslash-1, w): every vowel is replaced by that literal text,
because the doubly-escaped raw string denotes literal backslashes, not
group references. -/
def dupVowels (w : Str) : Str :=
  w.flatMap (fun c => if c ∈ VOWELS then ['\\', '1', '\\', '1'] else [c])

/-- What the duplicate-vowels option describes (each vowel doubled in place);
kept for comparison with dupVowels, which is what the code computes. -/
def dupVowelsSpec (w : Str) : Str :=
  w.flatMap (fun c => if c ∈ VOWELS then [c, c] else [c])

/-- w.capitalize() and p[0].upper() + p[1:].lower(): first character
upper-cased, all following characters lower-cased (ASCII). -/
def capChunk : Str → Str
  | [] => []
  | c :: cs => upperC c :: cs.map lowerC

/-- w[:-1].lower() + w[-1].upper(): the cap_last transform. -/
def capLast (w : Str) : Str :=
  w.dropLast.map lowerC ++ (w.getLast?.map upperC).toList

/-- re.split(r'(W+)', s) with the capture kept: the maximal runs of
word/non-word characters of s, in order.  (The empty boundary chunks that
re.split can also emit are dropped: the Python loops skip them via the
p-truthiness test and they contribute nothing to the join.) -/
def splitRuns : Str → List Str
  | [] => []
  | c :: cs =>
    (c :: cs.takeWhile (fun x => wordC x == wordC c)) ::
      splitRuns (cs.dropWhile (fun x => wordC x == wordC c))
termination_by s => s.length
decreasing_by
  simp only [List.length_cons]
  have := (List.dropWhile_sublist (l := cs) (fun x => wordC x == wordC c)).length_le
  omega

/-- The word/non-word class of a chunk, read off its first character. -/
def chunkClass : Str → Bool
  | [] => false
  | c :: _ => wordC c

/-- The invariant of the chunk lists produced by splitRuns: chunks are
non-empty, uniform in word/non-word class, and adjacent chunks alternate. -/
def ValidChunks : List Str → Prop
  | [] => True
  | p :: rest =>
    p ≠ [] ∧ (∀ c ∈ p, wordC c = chunkClass p) ∧
      (match rest with
       | [] => True
       | q :: _ => chunkClass q ≠ chunkClass p) ∧
      ValidChunks rest

/-- p and p[0].isalpha(): the guard of both capitalization loops. -/
def headAlpha : Str → Bool
  | [] => false
  | c :: _ => isAlphaC c

/-- The loop of WordlistEngine. reapply_case's third branch: capitalize the
first chunk whose first character is alphabetic, then stop. -/
def capPartsFirst : List Str → List Str
  | [] => []
  | p :: rest => if headAlpha p then capChunk p :: rest else p :: capPartsFirst rest

/-- The loop of WordlistEngine. cap_first_tokens: capitalize every chunk
whose first character is alphabetic. -/
def capPartsAll : List Str → List Str
  | [] => []
  | p :: rest => (if headAlpha p then capChunk p else p) :: capPartsAll rest

/-- WordlistEngine. cap_first_tokens. -/
def capFirstTokens (s : Str) : Str := (capPartsAll (splitRuns s)).flatten

/-- ref.isupper(): some cased character, and no lower-case cased character. -/
def isupperS (s : Str) : Bool := s.any isAlphaC && s.all (fun c => !isLowerC c)

/-- ref.islower(): some cased character, and no upper-case cased character. -/
def islowerS (s : Str) : Bool := s.any isAlphaC && s.all (fun c => !isUpperC c)

/-- WordlistEngine. reapply_case. -/
def reapplyCase (src ref : Str) : Str :=
  if isupperS ref then src.map upperC
  else if islowerS ref then src.map lowerC
  else (capPartsFirst (splitRuns src)).flatten

/-- The variants conditionally added for one candidate w by one iteration of
the mutation loop, in source order. -/
def variants (o : Options) (w : Str) : List Str :=
  (if o.add_casing then [w.map upperC, w.map lowerC, capChunk w] else []) ++
  (if o.add_leet then [w.map LEET] else []) ++
  (if o.duplicate_vowels then [dupVowels w] else []) ++
  (if o.reverse_words then [w.reverse] else []) ++
  (if o.cap_first ∧ w ≠ [] then [capFirstTokens w] else []) ++
  (if o.cap_last ∧ 0 < w.length then [capLast w] else [])

/-- set.add: append if not already present. -/
def setAdd (acc : List Str) (v : Str) : List Str :=
  if v ∈ acc then acc else acc ++ [v]

/-- WordlistEngine. mutate: acc = set(lst); for w in list(acc) (a snapshot of
the initial set): add the enabled variants of w.  The set is modelled as a
first-seen-order list. -/
def mutate (o : Options) (lst : List Str) : List Str :=
  (uniq lst).foldl (fun acc w => (variants o w).foldl setAdd acc) (uniq lst)

/-! ### Decorator, filter, numeric generator, generate -/

/-- WordlistEngine. prefix_suffix. -/
def prefixSuffix (o : Options) (lst : List Str) : List Str :=
  if o.add_prefix_suffix = [] then lst
  else lst ++ lst.flatMap (fun w =>
    o.add_prefix_suffix.flatMap (fun ch => [ch :: w, w ++ [ch]]))

/-- WordlistEngine. filter: keep strings with min_len <= len <= max_len. -/
def filterLen (o : Options) (lst : List Str) : List Str :=
  lst.filter (fun w => decide (o.min_len ≤ w.length ∧ w.length ≤ o.max_len))

/-- sorted(set(re.findall(r"d", src))): the deduplicated, sorted digit
alphabet drawn from the words and the formatted dates. -/
def digitAlphabet (words : List Str) (dates : List Date) : Str :=
  let src := (filterWords words).flatten ++ (datesOf dates).flatten
  sortBy (fun a b => decide (a ≤ b)) (uniq (src.filter isDigitC))

/-- itertools.product(digits, repeat=length): every length-tuple over the
alphabet, first coordinate varying slowest. -/
def cartPow (alphabet : Str) : Nat → List Str
  | 0 => [[]]
  | n + 1 => alphabet.flatMap (fun c => (cartPow alphabet n).map (fun t => c :: t))

/-- WordlistEngine. generate_numeric: digit-alphabet extraction, the
domain-error check, and the Cartesian power. -/
def generateNumeric (words : List Str) (dates : List Date) (o : Options) :
    Except String (List Str) :=
  let digits := digitAlphabet words dates
  if digits = [] then
    .error "Aucun chiffre dans les informations fournies (mots/dates)"
  else
    .ok (uniq (cartPow digits o.exact_digits))

/-- Whether a generation result is a raised error (and hence carries no
output list at all). -/
def isErr (e : Except String (List Str)) : Bool :=
  match e with
  | .error _ => true
  | .ok _ => false

/-- WordlistEngine.generate.  The soft enricher ( enrich_words) calls the
optional external lexical services (unidecode, WordNet), so it is taken as a
parameter: every theorem below holds for every enricher. -/
def generate (enrich : List Str → List Str) (words : List Str) (dates : List Date)
    (o : Options) : Except String (List Str) :=
  if o.numeric_only then generateNumeric words dates o
  else
    let base := if o.add_variants then enrich (filterWords words) else filterWords words
    let parts := datesOf dates ++ base
    .ok (uniq (filterLen o (prefixSuffix o (mutate o (combine o parts)))))

/-! ### Export encoders (Wizard. char_to_mask, rule builders) -/

/-- The ASCII punctuation set of Wizard. char_to_mask (hashcat ?s class);
the characters whose literals would be awkward in this file are written by
code point: 34 is the double quote, 39 the single quote, 96 the backtick,
123 and 125 the curly brackets. -/
def specialsASCII : Str :=
  [' ', '!', '\\', Char.ofNat 34, '#', '$', '%', '&', Char.ofNat 39, '(', ')', '*', '+',
   ',', '-', '.', '/', ':', ';', '<', '=', '>', '?', '@', '[', '\\', ']', '^', '_',
   Char.ofNat 96, Char.ofNat 123, '|', Char.ofNat 125, '~']

/-- Wizard. char_to_mask: the per-character class symbol. -/
def charToMask (ch : Char) : Str :=
  if 97 ≤ ch.toNat ∧ ch.toNat ≤ 122 then ['?', 'l']
  else if 65 ≤ ch.toNat ∧ ch.toNat ≤ 90 then ['?', 'u']
  else if 48 ≤ ch.toNat ∧ ch.toNat ≤ 57 then ['?', 'd']
  else if ch ∈ specialsASCII then ['?', 's']
  else ['?', 'a']

/-- The mask of one word: the per-character class symbols joined. -/
def maskOf (w : Str) : Str := (w.map charToMask).flatten

/-- The leet pairs iterated by both rule builders. -/
def leetRulePairs : List (Char × Char) :=
  [('a', '@'), ('a', '4'), ('e', '3'), ('i', '1'), ('o', '0'), ('s', '5')]

/-- "%d" rendering of a Nat. -/
def natToStr (n : Nat) : Str := Nat.toDigits 10 n

/-- sorted(rules) where rules is a set: deduplicate, then sort
lexicographically. -/
def sortRules (l : List Str) : List Str := sortBy lexLeB (uniq l)

/-- Wizard. build_hashcat_rules as a function of the Options. -/
def buildHashcatRules (o : Options) : List Str :=
  sortRules
    ([[':']] ++
     (if o.cap_first then [['c']] else []) ++
     (if o.cap_last then
        (List.range (max 1 o.max_len)).map (fun n => 'l' :: 'T' :: natToStr n)
      else []) ++
     (if o.add_leet then
        leetRulePairs.flatMap (fun p => [['s', p.1, p.2], ['s', upperC p.1, p.2]])
      else []) ++
     o.add_prefix_suffix.map (fun ch => ['$', ch]))

/-- Wizard. build_john_rules as a function of the Options. -/
def buildJohnRules (o : Options) : List Str :=
  sortRules
    ([[]] ++
     (if o.cap_first then [['c']] else []) ++
     (if o.add_leet then
        leetRulePairs.flatMap (fun p => [['s', p.1, p.2], ['s', upperC p.1, p.2]])
      else []) ++
     o.add_prefix_suffix.map (fun ch => ['A', ch]))


/-! ### Helper lemmas -/

theorem toNat_ofNat_valid (n : Nat) (h : n < 55296) : (Char.ofNat n).toNat = n := by
  unfold Char.ofNat
  rw [dif_pos (Or.inl h)]
  simp [Char.ofNatAux, Char.toNat, UInt32.toNat, UInt32.ofNatCore]

theorem toNat_upperC (c : Char) :
    (upperC c).toNat = if 97 ≤ c.toNat ∧ c.toNat ≤ 122 then c.toNat - 32 else c.toNat := by
  unfold upperC
  by_cases hc : 97 ≤ c.toNat ∧ c.toNat ≤ 122
  · rw [if_pos hc, if_pos hc, toNat_ofNat_valid _ (by omega)]
  · rw [if_neg hc, if_neg hc]

theorem toNat_lowerC (c : Char) :
    (lowerC c).toNat = if 65 ≤ c.toNat ∧ c.toNat ≤ 90 then c.toNat + 32 else c.toNat := by
  unfold lowerC
  by_cases hc : 65 ≤ c.toNat ∧ c.toNat ≤ 90
  · rw [if_pos hc, if_pos hc, toNat_ofNat_valid _ (by omega)]
  · rw [if_neg hc, if_neg hc]

theorem upperC_eq_self (c : Char) (h : ¬(97 ≤ c.toNat ∧ c.toNat ≤ 122)) : upperC c = c := by
  unfold upperC
  rw [if_neg h]

theorem lowerC_eq_self (c : Char) (h : ¬(65 ≤ c.toNat ∧ c.toNat ≤ 90)) : lowerC c = c := by
  unfold lowerC
  rw [if_neg h]

theorem upperC_upperC (c : Char) : upperC (upperC c) = upperC c := by
  apply upperC_eq_self
  have h := toNat_upperC c
  by_cases hc : 97 ≤ c.toNat ∧ c.toNat ≤ 122
  · rw [if_pos hc] at h; omega
  · rw [if_neg hc] at h; omega

theorem lowerC_lowerC (c : Char) : lowerC (lowerC c) = lowerC c := by
  apply lowerC_eq_self
  have h := toNat_lowerC c
  by_cases hc : 65 ≤ c.toNat ∧ c.toNat ≤ 90
  · rw [if_pos hc] at h; omega
  · rw [if_neg hc] at h; omega

theorem isAlphaC_upperC (c : Char) : isAlphaC (upperC c) = isAlphaC c := by
  have h := toNat_upperC c
  simp only [isAlphaC, isUpperC, isLowerC]
  rw [Bool.eq_iff_iff]
  simp only [Bool.or_eq_true, decide_eq_true_eq]
  by_cases hc : 97 ≤ c.toNat ∧ c.toNat ≤ 122
  · rw [if_pos hc] at h; omega
  · rw [if_neg hc] at h; omega

theorem isAlphaC_lowerC (c : Char) : isAlphaC (lowerC c) = isAlphaC c := by
  have h := toNat_lowerC c
  simp only [isAlphaC, isUpperC, isLowerC]
  rw [Bool.eq_iff_iff]
  simp only [Bool.or_eq_true, decide_eq_true_eq]
  by_cases hc : 65 ≤ c.toNat ∧ c.toNat ≤ 90
  · rw [if_pos hc] at h; omega
  · rw [if_neg hc] at h; omega

theorem wordC_upperC (c : Char) : wordC (upperC c) = wordC c := by
  have h := toNat_upperC c
  simp only [wordC, isAlphaC, isUpperC, isLowerC, isDigitC]
  rw [Bool.eq_iff_iff]
  simp only [Bool.or_eq_true, decide_eq_true_eq]
  by_cases hc : 97 ≤ c.toNat ∧ c.toNat ≤ 122
  · rw [if_pos hc] at h; omega
  · rw [if_neg hc] at h; omega

theorem wordC_lowerC (c : Char) : wordC (lowerC c) = wordC c := by
  have h := toNat_lowerC c
  simp only [wordC, isAlphaC, isUpperC, isLowerC, isDigitC]
  rw [Bool.eq_iff_iff]
  simp only [Bool.or_eq_true, decide_eq_true_eq]
  by_cases hc : 65 ≤ c.toNat ∧ c.toNat ≤ 90
  · rw [if_pos hc] at h; omega
  · rw [if_neg hc] at h; omega

theorem mem_uniqGo {α : Type} [DecidableEq α] (x : α) (l : List α) :
    ∀ seen, x ∈ uniqGo seen l ↔ x ∈ l ∧ x ∉ seen := by
  induction l with
  | nil => intro seen; simp [uniqGo]
  | cons w rest ih =>
    intro seen
    rw [uniqGo]
    by_cases hw : w ∈ seen
    · rw [if_pos hw, ih seen]
      constructor
      · rintro ⟨h1, h2⟩
        exact ⟨List.mem_cons_of_mem _ h1, h2⟩
      · rintro ⟨h1, h2⟩
        rcases List.mem_cons.mp h1 with rfl | h
        · exact absurd hw h2
        · exact ⟨h, h2⟩
    · rw [if_neg hw]
      constructor
      · intro hmem
        rcases List.mem_cons.mp hmem with rfl | h
        · exact ⟨List.mem_cons_self _ _, hw⟩
        · have h2 := (ih (w :: seen)).mp h
          exact ⟨List.mem_cons_of_mem _ h2.1, fun hs => h2.2 (List.mem_cons_of_mem _ hs)⟩
      · rintro ⟨h1, h2⟩
        rcases List.mem_cons.mp h1 with rfl | h
        · exact List.mem_cons_self _ _
        · by_cases hxw : x = w
          · subst hxw; exact List.mem_cons_self _ _
          · refine List.mem_cons_of_mem _ ((ih (w :: seen)).mpr ⟨h, fun hs => ?_⟩)
            rcases List.mem_cons.mp hs with h3 | h3
            · exact hxw h3
            · exact h2 h3

theorem mem_uniq {α : Type} [DecidableEq α] (x : α) (l : List α) : x ∈ uniq l ↔ x ∈ l := by
  rw [uniq, mem_uniqGo]
  simp

theorem nodup_uniqGo {α : Type} [DecidableEq α] (l : List α) :
    ∀ seen, (uniqGo seen l).Nodup := by
  induction l with
  | nil => intro seen; simp [uniqGo]
  | cons w rest ih =>
    intro seen
    by_cases hw : w ∈ seen
    · rw [uniqGo, if_pos hw]; exact ih seen
    · rw [uniqGo, if_neg hw]
      refine List.nodup_cons.mpr ⟨fun hmem => ?_, ih (w :: seen)⟩
      have := (mem_uniqGo w rest (w :: seen)).mp hmem
      exact this.2 (List.mem_cons_self w seen)

theorem nodup_uniq {α : Type} [DecidableEq α] (l : List α) : (uniq l).Nodup :=
  nodup_uniqGo l []

theorem uniqGo_eq_self {α : Type} [DecidableEq α] (l : List α) :
    ∀ seen, l.Nodup → (∀ x ∈ l, x ∉ seen) → uniqGo seen l = l := by
  induction l with
  | nil => intro seen _ _; rfl
  | cons w rest ih =>
    intro seen hnd hsep
    rw [uniqGo, if_neg (hsep w (List.mem_cons_self w rest))]
    congr 1
    apply ih
    · exact (List.nodup_cons.mp hnd).2
    · intro x hx
      intro hmem
      rcases List.mem_cons.mp hmem with h | h
      · exact (List.nodup_cons.mp hnd).1 (h ▸ hx)
      · exact hsep x (List.mem_cons_of_mem _ hx) h

theorem uniq_eq_self {α : Type} [DecidableEq α] (l : List α) (h : l.Nodup) : uniq l = l :=
  uniqGo_eq_self l [] h (by simp)

theorem perm_insSorted {α : Type} (le : α → α → Bool) (x : α) (l : List α) :
    (insSorted le x l).Perm (x :: l) := by
  induction l with
  | nil => rfl
  | cons y ys ih =>
    rw [insSorted]
    by_cases h : le x y
    · rw [if_pos h]
    · rw [if_neg h]
      exact (List.Perm.cons y ih).trans (List.Perm.swap x y ys)

theorem perm_sortBy {α : Type} (le : α → α → Bool) (l : List α) :
    (sortBy le l).Perm l := by
  induction l with
  | nil => rfl
  | cons x xs ih =>
    rw [sortBy]
    exact (perm_insSorted le x (sortBy le xs)).trans (List.Perm.cons x ih)

theorem mem_sortBy {α : Type} (le : α → α → Bool) (x : α) (l : List α) :
    x ∈ sortBy le l ↔ x ∈ l :=
  (perm_sortBy le l).mem_iff

theorem nodup_sortBy {α : Type} (le : α → α → Bool) (l : List α) (h : l.Nodup) :
    (sortBy le l).Nodup :=
  (perm_sortBy le l).nodup_iff.mpr h

theorem pairwise_insSorted {α : Type} (le : α → α → Bool)
    (htot : ∀ a b, le a b = true ∨ le b a = true)
    (htrans : ∀ a b c, le a b = true → le b c = true → le a c = true)
    (x : α) (l : List α) (hl : l.Pairwise (le · · = true)) :
    (insSorted le x l).Pairwise (le · · = true) := by
  induction l with
  | nil => simp [insSorted]
  | cons y ys ih =>
    rw [insSorted]
    rcases List.pairwise_cons.mp hl with ⟨hy, hys⟩
    by_cases h : le x y
    · rw [if_pos h]
      refine List.pairwise_cons.mpr ⟨?_, hl⟩
      intro z hz
      rcases List.mem_cons.mp hz with rfl | hz2
      · exact h
      · exact htrans x y z h (hy z hz2)
    · rw [if_neg h]
      have hyx : le y x = true := by
        rcases htot x y with h1 | h1
        · exact absurd h1 h
        · exact h1
      refine List.pairwise_cons.mpr ⟨?_, ih hys⟩
      intro z hz
      rcases (perm_insSorted le x ys).mem_iff.mp hz with hz2
      rcases List.mem_cons.mp hz2 with rfl | hz3
      · exact hyx
      · exact hy z hz3

theorem pairwise_sortBy {α : Type} (le : α → α → Bool)
    (htot : ∀ a b, le a b = true ∨ le b a = true)
    (htrans : ∀ a b c, le a b = true → le b c = true → le a c = true)
    (l : List α) : (sortBy le l).Pairwise (le · · = true) := by
  induction l with
  | nil => simp [sortBy]
  | cons x xs ih => exact pairwise_insSorted le htot htrans x (sortBy le xs) ih

/-! ### Lexicographic comparison of strings (Python string order) -/

theorem lexLtB_cons_lt (a b : Char) (as bs : Str) (h : a < b) :
    lexLtB (a :: as) (b :: bs) = true := by
  rw [lexLtB, if_pos h]

theorem lexLtB_cons_eq (a : Char) (as bs : Str) (h : lexLtB as bs = true) :
    lexLtB (a :: as) (a :: bs) = true := by
  rw [lexLtB, if_neg (lt_irrefl a), if_pos rfl]
  exact h

/-! ### The data model (word_wizard.py, section Modèle) -/

/-! ### Cartesian power and digit alphabet lemmas -/

theorem sum_map_const {α : Type} (l : List α) (k : Nat) :
    (l.map (fun _ => k)).sum = l.length * k := by
  induction l with
  | nil => simp
  | cons a as ih => simp [ih, Nat.succ_mul, Nat.add_comm]

theorem length_cartPow (a : Str) (n : Nat) :
    (cartPow a n).length = a.length ^ n := by
  induction n with
  | zero => rfl
  | succ n ih =>
    rw [cartPow, List.length_flatMap]
    have hmap : a.map (List.length ∘ fun c => (cartPow a n).map (fun t => c :: t)) =
        a.map (fun _ => (cartPow a n).length) := by
      apply List.map_congr_left
      intro c _
      simp
    rw [hmap, sum_map_const, ih, pow_succ, Nat.mul_comm]

theorem mem_cartPow (a : Str) (n : Nat) (s : Str) :
    s ∈ cartPow a n ↔ s.length = n ∧ ∀ c ∈ s, c ∈ a := by
  induction n generalizing s with
  | zero =>
    simp only [cartPow, List.mem_singleton]
    constructor
    · rintro rfl; simp
    · rintro ⟨h1, _⟩
      exact List.eq_nil_of_length_eq_zero h1
  | succ n ih =>
    rw [cartPow, List.mem_flatMap]
    constructor
    · rintro ⟨c, hc, hs⟩
      rcases List.mem_map.mp hs with ⟨t, ht, rfl⟩
      rcases (ih t).mp ht with ⟨hlen, hmem⟩
      refine ⟨by simp [hlen], ?_⟩
      intro x hx
      rcases List.mem_cons.mp hx with rfl | hx2
      · exact hc
      · exact hmem x hx2
    · rintro ⟨h1, h2⟩
      match s with
      | c :: t =>
        refine ⟨c, h2 c (List.mem_cons_self _ _), ?_⟩
        apply List.mem_map.mpr
        refine ⟨t, (ih t).mpr ⟨by simpa using h1, ?_⟩, rfl⟩
        intro x hx
        exact h2 x (List.mem_cons_of_mem _ hx)

theorem nodup_cartPow (a : Str) (n : Nat) (h : a.Nodup) : (cartPow a n).Nodup := by
  induction n with
  | zero => simp [cartPow]
  | succ n ih =>
    rw [cartPow, List.nodup_flatMap]
    constructor
    · intro c _
      exact ih.map (fun t₁ t₂ ht => by injection ht)
    · refine h.imp (fun hne => ?_)
      intro s h1 h2
      rcases List.mem_map.mp h1 with ⟨t₁, _, rfl⟩
      rcases List.mem_map.mp h2 with ⟨t₂, _, heq⟩
      injection heq with heq1 _
      exact hne heq1.symm

theorem pairwise_flatMap {α β : Type} (R : β → β → Prop) (f : α → List β) (l : List α)
    (h1 : ∀ x ∈ l, (f x).Pairwise R)
    (h2 : l.Pairwise (fun x y => ∀ u ∈ f x, ∀ v ∈ f y, R u v)) :
    (l.flatMap f).Pairwise R := by
  induction l with
  | nil => simp
  | cons x xs ih =>
    rw [List.flatMap_cons, List.pairwise_append]
    rcases List.pairwise_cons.mp h2 with ⟨hx, hxs⟩
    refine ⟨h1 x (List.mem_cons_self _ _), ih (fun y hy => h1 y (List.mem_cons_of_mem _ hy)) hxs, ?_⟩
    intro u hu v hv
    rcases List.mem_flatMap.mp hv with ⟨y, hy, hvy⟩
    exact hx y hy u hu v hvy

theorem pairwise_cartPow (a : Str) (n : Nat) (h : a.Pairwise (· < ·)) :
    (cartPow a n).Pairwise (fun x y => lexLtB x y = true) := by
  induction n with
  | zero => simp [cartPow]
  | succ n ih =>
    rw [cartPow]
    apply pairwise_flatMap
    · intro c _
      apply List.Pairwise.map
      · intro t₁ t₂ ht
        exact lexLtB_cons_eq c t₁ t₂ ht
      · exact ih
    · refine h.imp (fun hlt => ?_)
      intro u hu v hv
      rcases List.mem_map.mp hu with ⟨t₁, _, rfl⟩
      rcases List.mem_map.mp hv with ⟨t₂, _, rfl⟩
      exact lexLtB_cons_lt _ _ t₁ t₂ hlt

theorem nodup_digitAlphabet (words : List Str) (dates : List Date) :
    (digitAlphabet words dates).Nodup := by
  unfold digitAlphabet
  exact nodup_sortBy _ _ (nodup_uniq _)

theorem pairwise_lt_digitAlphabet (words : List Str) (dates : List Date) :
    (digitAlphabet words dates).Pairwise (· < ·) := by
  have hle : (digitAlphabet words dates).Pairwise (fun a b => a ≤ b) := by
    unfold digitAlphabet
    have := pairwise_sortBy (α := Char) (fun a b => decide (a ≤ b))
      (fun a b => by
        rcases le_total a b with h | h
        · exact Or.inl (by simpa using h)
        · exact Or.inr (by simpa using h))
      (fun a b c h1 h2 => by
        simp only [decide_eq_true_eq] at *
        exact le_trans h1 h2)
      (uniq (((filterWords words).flatten ++ (datesOf dates).flatten).filter isDigitC))
    exact this.imp (fun h => by simpa using h)
  have hnd := nodup_digitAlphabet words dates
  exact (hle.and hnd).imp (fun h => lt_of_le_of_ne h.1 h.2)

theorem mem_digitAlphabet (words : List Str) (dates : List Date) (c : Char) :
    c ∈ digitAlphabet words dates ↔
      c ∈ ((filterWords words).flatten ++ (datesOf dates).flatten).filter isDigitC := by
  unfold digitAlphabet
  rw [mem_sortBy, mem_uniq]

theorem digitAlphabet_eq_nil_iff (words : List Str) (dates : List Date) :
    digitAlphabet words dates = [] ↔
      ((filterWords words).flatten ++ (datesOf dates).flatten).filter isDigitC = [] := by
  rw [List.eq_nil_iff_forall_not_mem, List.eq_nil_iff_forall_not_mem]
  constructor
  · intro h c hc
    exact h c ((mem_digitAlphabet words dates c).mpr hc)
  · intro h c hc
    exact h c ((mem_digitAlphabet words dates c).mp hc)

/-- Decomposition of generate in numeric mode: a successful run means the
digit alphabet is non-empty and the output is exactly its Cartesian power
(the final deduplication is the identity there). -/
theorem generate_numeric_ok_eq (enrich : List Str → List Str) (words : List Str)
    (dates : List Date) (o : Options) (out : List Str)
    (hn : o.numeric_only = true) (h : generate enrich words dates o = .ok out) :
    digitAlphabet words dates ≠ [] ∧
      out = cartPow (digitAlphabet words dates) o.exact_digits := by
  simp only [generate, hn, if_true] at h
  by_cases hd : digitAlphabet words dates = []
  · simp [generateNumeric, hd] at h
  · refine ⟨hd, ?_⟩
    simp only [generateNumeric, hd, if_neg, ite_false] at h
    have hnd := nodup_cartPow (digitAlphabet words dates) o.exact_digits
      (nodup_digitAlphabet words dates)
    rw [uniq_eq_self _ hnd] at h
    exact (Except.ok.inj h).symm

/-- C2: in numeric mode with exact_digits = L, a successful generation
returns exactly d to the power L distinct strings over the d-element digit
alphabet extracted from the words and formatted dates, each of length
exactly L and drawn character-wise from that alphabet. -/
theorem generate_numeric_cartesian_power (enrich : List Str → List Str)
    (words : List Str) (dates : List Date) (o : Options) (out : List Str)
    (hv : o.valid) (hn : o.numeric_only = true)
    (h : generate enrich words dates o = .ok out) :
    out.length = (digitAlphabet words dates).length ^ o.exact_digits ∧
      out.Nodup ∧
      ∀ s ∈ out, s.length = o.exact_digits ∧ ∀ c ∈ s, c ∈ digitAlphabet words dates := by
  rcases generate_numeric_ok_eq enrich words dates o out hn h with ⟨-, rfl⟩
  refine ⟨length_cartPow _ _, nodup_cartPow _ _ (nodup_digitAlphabet words dates), ?_⟩
  intro s hs
  exact (mem_cartPow _ _ s).mp hs

/-- Instance of C2 on Scenario C: words ["ab12"], no dates, exact_digits = 2;
the digit alphabet is "12" and the output is the four strings 11 12 21 22. -/
theorem generate_numeric_cartesian_power_witness :
    ∃ out, generate id [['a', 'b', '1', '2']] [] { numeric_only := true, exact_digits := 2 } =
        .ok out ∧
      out.length = (digitAlphabet [['a', 'b', '1', '2']] []).length ^ 2 ∧
      out.Nodup ∧
      ∀ s ∈ out, s.length = 2 ∧ ∀ c ∈ s, c ∈ digitAlphabet [['a', 'b', '1', '2']] [] := by
  refine ⟨[['1', '1'], ['1', '2'], ['2', '1'], ['2', '2']], rfl, ?_⟩
  exact generate_numeric_cartesian_power id [['a', 'b', '1', '2']] []
    { numeric_only := true, exact_digits := 2 }
    [['1', '1'], ['1', '2'], ['2', '1'], ['2', '2']] (by decide) rfl rfl

/-- C7: in numeric mode, generation raises the domain error exactly when no
digit character occurs in the concatenation of the (non-empty) input words
and the formatted date fragments.  The embedding is a pure function into an
Except value, so a raised error carries no output and changes no state. -/
theorem generate_numeric_error_iff_no_digits (enrich : List Str → List Str)
    (words : List Str) (dates : List Date) (o : Options)
    (hn : o.numeric_only = true) :
    isErr (generate enrich words dates o) = true ↔
      ((filterWords words).flatten ++ (datesOf dates).flatten).filter isDigitC = [] := by
  simp only [generate, hn, if_true]
  rw [← digitAlphabet_eq_nil_iff]
  by_cases hd : digitAlphabet words dates = []
  · simp [generateNumeric, hd, isErr]
  · simp [generateNumeric, hd, isErr]

/-- Instance of C7: the word "ab" with no dates yields no digits, and the
numeric path raises. -/
theorem generate_numeric_error_iff_no_digits_witness :
    isErr (generate id [['a', 'b']] [] { numeric_only := true, exact_digits := 2 }) = true :=
  (generate_numeric_error_iff_no_digits id [['a', 'b']] []
    { numeric_only := true, exact_digits := 2 } rfl).mpr (by decide)

/-- C10: in numeric mode, a successful generation is strictly increasing in
lexicographic order (characters compared by code point), because the digit
alphabet is sorted before the Cartesian power is enumerated. -/
theorem generate_numeric_lex_increasing (enrich : List Str → List Str)
    (words : List Str) (dates : List Date) (o : Options) (out : List Str)
    (hv : o.valid) (hn : o.numeric_only = true)
    (h : generate enrich words dates o = .ok out) :
    out.Pairwise (fun x y => lexLtB x y = true) := by
  rcases generate_numeric_ok_eq enrich words dates o out hn h with ⟨-, rfl⟩
  exact pairwise_cartPow _ _ (pairwise_lt_digitAlphabet words dates)

/-- Instance of C10 on Scenario C: the output 11 12 21 22 is strictly
lexicographically increasing. -/
theorem generate_numeric_lex_increasing_witness :
    ∃ out, generate id [['a', 'b', '1', '2']] [] { numeric_only := true, exact_digits := 2 } =
        .ok out ∧
      out.Pairwise (fun x y => lexLtB x y = true) :=
  ⟨[['1', '1'], ['1', '2'], ['2', '1'], ['2', '2']], rfl,
    generate_numeric_lex_increasing id [['a', 'b', '1', '2']] []
      { numeric_only := true, exact_digits := 2 }
      [['1', '1'], ['1', '2'], ['2', '1'], ['2', '2']] (by decide) rfl rfl⟩

/-- C1: outside numeric mode, every string of a successful generation has
length between min_len and max_len inclusive, and the returned list holds no
two equal strings.  This holds for every enricher. -/
theorem generate_word_mode_bounds_nodup (enrich : List Str → List Str)
    (words : List Str) (dates : List Date) (o : Options) (out : List Str)
    (hv : o.valid) (hn : o.numeric_only = false)
    (h : generate enrich words dates o = .ok out) :
    (∀ s ∈ out, o.min_len ≤ s.length ∧ s.length ≤ o.max_len) ∧ out.Nodup := by
  simp only [generate, hn, Bool.false_eq_true, if_false] at h
  rcases Except.ok.inj h with rfl
  constructor
  · intro s hs
    have h1 := (mem_uniq s _).mp hs
    have h2 := (List.mem_filter.mp h1).2
    simpa using h2
  · exact nodup_uniq _

/-- Instance of C1: the single word "ab" with pure concatenation settings
generates exactly ["ab"], inside the bounds and duplicate-free. -/
theorem generate_word_mode_bounds_nodup_witness :
    ∃ out, generate id [['a', 'b']] []
        { min_len := 1, max_len := 4, separators := [], add_leet := false,
          add_casing := false, add_separators := false, add_prefix_suffix := [] } =
        .ok out ∧
      (∀ s ∈ out, 1 ≤ s.length ∧ s.length ≤ 4) ∧ out.Nodup := by
  refine ⟨[['a', 'b']], rfl, ?_⟩
  exact generate_word_mode_bounds_nodup id [['a', 'b']] []
    { min_len := 1, max_len := 4, separators := [], add_leet := false,
      add_casing := false, add_separators := false, add_prefix_suffix := [] }
    [['a', 'b']] (by decide) rfl rfl

/-! ### Mutator lemmas -/

theorem mem_setAdd (acc : List Str) (v x : Str) :
    x ∈ setAdd acc v ↔ x ∈ acc ∨ x = v := by
  unfold setAdd
  by_cases h : v ∈ acc
  · rw [if_pos h]
    constructor
    · exact Or.inl
    · rintro (hx | rfl)
      · exact hx
      · exact h
  · rw [if_neg h]
    simp [List.mem_append]

theorem mem_foldl_setAdd (vs : List Str) :
    ∀ (acc : List Str) (x : Str), x ∈ vs.foldl setAdd acc ↔ x ∈ acc ∨ x ∈ vs := by
  induction vs with
  | nil => intro acc x; simp
  | cons v vs ih =>
    intro acc x
    rw [List.foldl_cons, ih, mem_setAdd]
    constructor
    · rintro ((hx | rfl) | hx)
      · exact Or.inl hx
      · exact Or.inr (List.mem_cons_self _ _)
      · exact Or.inr (List.mem_cons_of_mem _ hx)
    · rintro (hx | hx)
      · exact Or.inl (Or.inl hx)
      · rcases List.mem_cons.mp hx with rfl | hx2
        · exact Or.inl (Or.inr rfl)
        · exact Or.inr hx2

theorem mem_mutate_loop (o : Options) (ws : List Str) :
    ∀ (acc : List Str) (x : Str),
      x ∈ ws.foldl (fun acc w => (variants o w).foldl setAdd acc) acc ↔
        x ∈ acc ∨ ∃ w ∈ ws, x ∈ variants o w := by
  induction ws with
  | nil => intro acc x; simp
  | cons w ws ih =>
    intro acc x
    rw [List.foldl_cons, ih, mem_foldl_setAdd]
    constructor
    · rintro ((hx | hx) | ⟨w2, hw2, hx⟩)
      · exact Or.inl hx
      · exact Or.inr ⟨w, List.mem_cons_self _ _, hx⟩
      · exact Or.inr ⟨w2, List.mem_cons_of_mem _ hw2, hx⟩
    · rintro (hx | ⟨w2, hw2, hx⟩)
      · exact Or.inl (Or.inl hx)
      · rcases List.mem_cons.mp hw2 with rfl | hw3
        · exact Or.inl (Or.inr hx)
        · exact Or.inr ⟨w2, hw3, hx⟩

/-- Membership characterization of the mutation set: exactly the inputs and
the single-step enabled variants of inputs. -/
theorem mem_mutate (o : Options) (lst : List Str) (x : Str) :
    x ∈ mutate o lst ↔ x ∈ lst ∨ ∃ w ∈ lst, x ∈ variants o w := by
  unfold mutate
  rw [mem_mutate_loop, mem_uniq]
  constructor
  · rintro (hx | ⟨w, hw, hx⟩)
    · exact Or.inl hx
    · exact Or.inr ⟨w, (mem_uniq w lst).mp hw, hx⟩
  · rintro (hx | ⟨w, hw, hx⟩)
    · exact Or.inl hx
    · exact Or.inr ⟨w, (mem_uniq w lst).mpr hw, hx⟩

/-- C9: the Mutator is single-pass.  A string is in the output exactly when
it is an input or one enabled transform applied directly to an input (the
loop iterates over a snapshot of the initial set, so transforms are never
applied to transform results), and every input is retained. -/
theorem mutate_single_pass (o : Options) (lst : List Str) (x : Str) :
    x ∈ mutate o lst ↔ x ∈ lst ∨ ∃ w ∈ lst, x ∈ variants o w :=
  mem_mutate o lst x

/-- C3 counterexample: with the default options (leet enabled), the variant
claimed for the candidate "A" by the spec table (A to @) is not produced;
the code maps A to 4 instead. -/
theorem mutate_leet_table_counterexample :
    (['A'] : Str).map LEETClaim = ['@'] ∧
    (['A'] : Str).map LEET = ['4'] ∧
    (['A'] : Str).map LEETClaim ∉ mutate {} [['A']] ∧
    (['A'] : Str).map LEET ∈ mutate {} [['A']] := by
  decide

/-- C3 amended: when add_leet is enabled the Mutator adds, for every
candidate, the character-wise image under the source table LEET, which maps
a to @, A to 4, e to the euro sign, E to 3, i to !, I to 1, o to the
inverted exclamation mark, O to 0, s to the dollar sign and S to 5. -/
theorem mutate_adds_leet_variant (o : Options) (lst : List Str) (w : Str)
    (hleet : o.add_leet = true) (hw : w ∈ lst) :
    w.map LEET ∈ mutate o lst := by
  rw [mem_mutate]
  refine Or.inr ⟨w, hw, ?_⟩
  simp [variants, hleet]

/-- Instance of the amended C3: leet of "sea" is the string dollar-euro-at
(the table maps the lower-case e to the euro sign), and it is produced. -/
theorem mutate_adds_leet_variant_witness :
    (['s', 'e', 'a'] : Str).map LEET = ['$', '€', '@'] ∧
    (['s', 'e', 'a'] : Str).map LEET ∈ mutate {} [['s', 'e', 'a']] :=
  ⟨by decide, mutate_adds_leet_variant {} [['s', 'e', 'a']] ['s', 'e', 'a'] rfl (by decide)⟩

/-- C5 (code bug): the duplicate-vowels transform of the source replaces
every vowel of the candidate with the literal four-character text
backslash-1-backslash-1 (the replacement string in the source is a raw
string with doubled backslashes, so it denotes literal text, not group
references), instead of doubling the vowel as the option describes.  On the
candidate "sea" the code adds s-backslash-1-backslash-1-backslash-1-
backslash-1 and does not add "seeaa". -/
theorem dup_vowels_literal_text_eval :
    dupVowels ['s', 'e', 'a'] = ['s', '\\', '1', '\\', '1', '\\', '1', '\\', '1'] ∧
    dupVowelsSpec ['s', 'e', 'a'] = ['s', 'e', 'e', 'a', 'a'] ∧
    dupVowels ['s', 'e', 'a'] ≠ dupVowelsSpec ['s', 'e', 'a'] ∧
    dupVowels ['s', 'e', 'a'] ∈
      mutate { add_casing := false, add_leet := false, duplicate_vowels := true }
        [['s', 'e', 'a']] ∧
    dupVowelsSpec ['s', 'e', 'a'] ∉
      mutate { add_casing := false, add_leet := false, duplicate_vowels := true }
        [['s', 'e', 'a']] := by
  decide

/-! ### Mask encoder lemmas -/

theorem length_charToMask (ch : Char) : (charToMask ch).length = 2 := by
  unfold charToMask
  split_ifs <;> rfl

theorem maskOf_cons (c : Char) (cs : Str) :
    maskOf (c :: cs) = charToMask c ++ maskOf cs := by
  simp [maskOf]

/-- C6 counterexample: the mask of the one-character string "a" is the
two-character symbol ?l, so mask encoding is not length-preserving. -/
theorem mask_length_counterexample :
    maskOf ['a'] = ['?', 'l'] ∧ (maskOf ['a']).length ≠ (['a'] : Str).length := by
  decide

/-- C6 amended: the mask of s consists of one two-character class symbol per
character of s, in order (so its length is twice the length of s): the
symbol block at offset 2*i is exactly the class symbol of the i-th
character. -/
theorem mask_per_char_classes (w : Str) :
    (maskOf w).length = 2 * w.length ∧
    ∀ i, (h : i < w.length) →
      ((maskOf w).drop (2 * i)).take 2 = charToMask (w.get ⟨i, h⟩) := by
  induction w with
  | nil =>
    refine ⟨rfl, ?_⟩
    intro i h
    exact absurd h (Nat.not_lt_zero i)
  | cons c cs ih =>
    constructor
    · rw [maskOf_cons, List.length_append, length_charToMask, ih.1, List.length_cons]
      omega
    · intro i h
      match i with
      | 0 =>
        rw [maskOf_cons]
        simp only [Nat.mul_zero, List.drop_zero]
        have h2 : (charToMask c).length = 2 := length_charToMask c
        calc ((charToMask c ++ maskOf cs).take 2)
            = (charToMask c ++ maskOf cs).take (charToMask c).length := by rw [h2]
          _ = charToMask c := List.take_left _ _
          _ = charToMask ((c :: cs).get ⟨0, h⟩) := rfl
      | i + 1 =>
        have hi : i < cs.length := by
          simpa [Nat.succ_lt_succ_iff] using h
        have hdrop : (maskOf (c :: cs)).drop (2 * (i + 1)) = (maskOf cs).drop (2 * i) := by
          rw [maskOf_cons]
          have h2 : 2 * (i + 1) = (charToMask c).length + 2 * i := by
            rw [length_charToMask]; omega
          rw [h2, List.drop_append]
        rw [hdrop]
        have := ih.2 i hi
        rw [this]
        rfl

/-- Instance of the amended C6 on the string "P1": the mask is ?u?d, of
length 4, and the block at offset 2 is the class symbol of the digit. -/
theorem mask_per_char_classes_witness :
    (maskOf ['P', '1']).length = 2 * 2 ∧
    ((maskOf ['P', '1']).drop (2 * 1)).take 2 = charToMask '1' := by
  refine ⟨(mask_per_char_classes ['P', '1']).1, ?_⟩
  have := (mask_per_char_classes ['P', '1']).2 1 (by decide)
  simpa using this

/-! ### Rule encoder lemmas -/

theorem mem_sortRules (l : List Str) (x : Str) : x ∈ sortRules l ↔ x ∈ l := by
  rw [sortRules, mem_sortBy, mem_uniq]

theorem leet_rules_eval :
    leetRulePairs.flatMap (fun p => [['s', p.1, p.2], ['s', upperC p.1, p.2]]) =
      [['s', 'a', '@'], ['s', 'A', '@'], ['s', 'a', '4'], ['s', 'A', '4'],
       ['s', 'e', '3'], ['s', 'E', '3'], ['s', 'i', '1'], ['s', 'I', '1'],
       ['s', 'o', '0'], ['s', 'O', '0'], ['s', 's', '5'], ['s', 'S', '5']] := by
  decide

/-- C4 counterexample: with only cap_last set (and max_len = 1), the Hashcat
rule set gains the rule lT0 while the John rule set is unchanged and holds
only the no-op: the two dialects do not honor the same set of flags. -/
theorem rules_same_flags_counterexample :
    buildJohnRules { cap_last := true, add_leet := false, add_prefix_suffix := [], max_len := 1 } =
      buildJohnRules { cap_last := false, add_leet := false, add_prefix_suffix := [], max_len := 1 } ∧
    buildHashcatRules { cap_last := true, add_leet := false, add_prefix_suffix := [], max_len := 1 } ≠
      buildHashcatRules { cap_last := false, add_leet := false, add_prefix_suffix := [], max_len := 1 } ∧
    (['l', 'T', '0'] : Str) ∈
      buildHashcatRules { cap_last := true, add_leet := false, add_prefix_suffix := [], max_len := 1 } ∧
    ∀ r ∈ buildJohnRules { cap_last := true, add_leet := false, add_prefix_suffix := [], max_len := 1 },
      r = [] := by
  decide

/-- C4 amended: the two encoders honor cap_first, add_leet and
add_prefix_suffix identically (the dialects differing only in token
spelling), but cap_last is honored only by the Hashcat encoder: the John
rule set is independent of cap_last. -/
theorem rules_flags_agreement (o : Options) :
    ((['c'] : Str) ∈ buildHashcatRules o ↔ o.cap_first = true) ∧
    ((['c'] : Str) ∈ buildJohnRules o ↔ o.cap_first = true) ∧
    ((['s', 'a', '@'] : Str) ∈ buildHashcatRules o ↔ o.add_leet = true) ∧
    ((['s', 'a', '@'] : Str) ∈ buildJohnRules o ↔ o.add_leet = true) ∧
    (∀ ch, (['$', ch] : Str) ∈ buildHashcatRules o ↔ ch ∈ o.add_prefix_suffix) ∧
    (∀ ch, (['A', ch] : Str) ∈ buildJohnRules o ↔ ch ∈ o.add_prefix_suffix) ∧
    ((['l', 'T', '0'] : Str) ∈ buildHashcatRules o ↔ o.cap_last = true) ∧
    (∀ b, buildJohnRules { o with cap_last := b } = buildJohnRules o) := by
  refine ⟨?_, ?_, ?_, ?_, ?_, ?_, ?_, fun b => rfl⟩
  · unfold buildHashcatRules
    rw [mem_sortRules]
    simp [leet_rules_eval, List.mem_ite_nil_right]
  · unfold buildJohnRules
    rw [mem_sortRules]
    simp [leet_rules_eval, List.mem_ite_nil_right]
  · unfold buildHashcatRules
    rw [mem_sortRules]
    simp [leet_rules_eval, List.mem_ite_nil_right]
  · unfold buildJohnRules
    rw [mem_sortRules]
    simp [leet_rules_eval, List.mem_ite_nil_right]
  · intro ch
    unfold buildHashcatRules
    rw [mem_sortRules]
    simp [leet_rules_eval, List.mem_ite_nil_right]
  · intro ch
    unfold buildJohnRules
    rw [mem_sortRules]
    simp [leet_rules_eval, List.mem_ite_nil_right]
  · unfold buildHashcatRules
    rw [mem_sortRules]
    simp [leet_rules_eval, List.mem_ite_nil_right]
    intro _
    exact Or.inl (by decide)

/-- Instance of the amended C4 with the default options: leet is enabled, so
both encoders emit the substitution rule sa@. -/
theorem rules_flags_agreement_witness :
    (['s', 'a', '@'] : Str) ∈ buildHashcatRules {} ∧
    (['s', 'a', '@'] : Str) ∈ buildJohnRules {} :=
  ⟨(rules_flags_agreement {}).2.2.1.mpr rfl, (rules_flags_agreement {}).2.2.2.1.mpr rfl⟩

/-! ### Casing re-application lemmas -/

theorem takeWhile_append_all {p : Char → Bool} (xs ys : Str) (h : ∀ x ∈ xs, p x = true) :
    (xs ++ ys).takeWhile p = xs ++ ys.takeWhile p := by
  induction xs with
  | nil => simp
  | cons x xs ih =>
    have hx := h x (List.mem_cons_self _ _)
    simp only [List.cons_append, List.takeWhile_cons, hx, if_true]
    rw [ih (fun y hy => h y (List.mem_cons_of_mem _ hy))]

theorem dropWhile_append_all {p : Char → Bool} (xs ys : Str) (h : ∀ x ∈ xs, p x = true) :
    (xs ++ ys).dropWhile p = ys.dropWhile p := by
  induction xs with
  | nil => simp
  | cons x xs ih =>
    have hx := h x (List.mem_cons_self _ _)
    simp only [List.cons_append, List.dropWhile_cons, hx, if_true]
    exact ih (fun y hy => h y (List.mem_cons_of_mem _ hy))

theorem dropWhile_cons_head_false {p : Char → Bool} :
    ∀ (l : List Char) (d : Char) (ds : List Char), l.dropWhile p = d :: ds → p d = false := by
  intro l
  induction l with
  | nil => intro d ds h; exact absurd h (by simp)
  | cons x xs ih =>
    intro d ds h
    rw [List.dropWhile_cons] at h
    by_cases hx : p x = true
    · rw [if_pos hx] at h
      exact ih d ds h
    · rw [if_neg hx] at h
      rcases List.cons.inj h with ⟨rfl, -⟩
      exact Bool.not_eq_true _ ▸ (by simpa using hx)

theorem valid_splitRuns (s : Str) : ValidChunks (splitRuns s) := by
  induction s using splitRuns.induct with
  | case1 => simp [splitRuns, ValidChunks]
  | case2 c cs ih =>
    rw [splitRuns]
    refine ⟨by simp, ?_, ?_, ih⟩
    · intro x hx
      rcases List.mem_cons.mp hx with rfl | hx2
      · rfl
      · have hb := List.mem_takeWhile_imp hx2
        simp only [chunkClass]
        exact beq_iff_eq.mp hb
    · cases hd : List.dropWhile (fun x => wordC x == wordC c) cs with
      | nil => simp [splitRuns]
      | cons d ds =>
        rw [splitRuns]
        show chunkClass (d :: List.takeWhile (fun x => wordC x == wordC d) ds) ≠
          chunkClass (c :: List.takeWhile (fun x => wordC x == wordC c) cs)
        have hpd := dropWhile_cons_head_false cs d ds hd
        simp only [chunkClass]
        intro heq
        rw [heq] at hpd
        simp at hpd

theorem splitRuns_flatten_of_valid : ∀ cl : List Str, ValidChunks cl →
    splitRuns cl.flatten = cl := by
  intro cl
  induction cl with
  | nil => intro _; simp [splitRuns]
  | cons p rest ih =>
    intro hv
    obtain ⟨hne, huni, hadj, hrest⟩ := hv
    match p, hne, huni, hadj with
    | c :: run, _, huni, hadj =>
      have hall : ∀ x ∈ run, (wordC x == wordC c) = true := by
        intro x hx
        have := huni x (List.mem_cons_of_mem _ hx)
        simp only [chunkClass] at this
        exact beq_iff_eq.mpr this
      rw [List.flatten_cons, List.cons_append, splitRuns,
        takeWhile_append_all run _ hall, dropWhile_append_all run _ hall]
      cases rest with
      | nil =>
        simp [splitRuns]
      | cons q rest2 =>
        have hqne : q ≠ [] := hrest.1
        have hadj2 : chunkClass q ≠ chunkClass (c :: run) := hadj
        match q, hqne, hadj2 with
        | d :: q2, _, hadj2 =>
          have hdq : wordC d ≠ wordC c := by
            simpa only [chunkClass] using hadj2
          have hpd : (wordC d == wordC c) = false := by
            simpa using hdq
          rw [List.flatten_cons, List.cons_append, List.takeWhile_cons, hpd]
          simp only [Bool.false_eq_true, if_false, List.append_nil]
          rw [List.dropWhile_cons, hpd]
          simp only [Bool.false_eq_true, if_false]
          have hih := ih hrest
          rw [List.flatten_cons, List.cons_append] at hih
          rw [hih]

theorem chunkClass_capChunk (p : Str) : chunkClass (capChunk p) = chunkClass p := by
  cases p with
  | nil => rfl
  | cons c cs => simp [capChunk, chunkClass, wordC_upperC]

theorem capChunk_ne_nil (p : Str) (h : p ≠ []) : capChunk p ≠ [] := by
  cases p with
  | nil => exact absurd rfl h
  | cons c cs => simp [capChunk]

theorem capChunk_capChunk (p : Str) : capChunk (capChunk p) = capChunk p := by
  cases p with
  | nil => rfl
  | cons c cs =>
    simp only [capChunk, upperC_upperC, List.map_map, List.cons.injEq, true_and]
    apply List.map_congr_left
    intro a _
    exact lowerC_lowerC a

theorem headAlpha_capChunk (p : Str) (h : headAlpha p = true) :
    headAlpha (capChunk p) = true := by
  cases p with
  | nil => simp [headAlpha] at h
  | cons c cs =>
    simp only [headAlpha, capChunk, isAlphaC_upperC]
    simpa [headAlpha] using h

theorem uniform_capChunk (p : Str) (h : ∀ c ∈ p, wordC c = chunkClass p) :
    ∀ c ∈ capChunk p, wordC c = chunkClass (capChunk p) := by
  cases p with
  | nil => simp [capChunk]
  | cons c cs =>
    intro x hx
    rw [chunkClass_capChunk]
    simp only [capChunk, List.mem_cons] at hx
    rcases hx with rfl | hx2
    · rw [wordC_upperC]
      exact h c (List.mem_cons_self _ _)
    · rcases List.mem_map.mp hx2 with ⟨y, hy, rfl⟩
      rw [wordC_lowerC]
      exact h y (List.mem_cons_of_mem _ hy)

theorem valid_capPartsFirst : ∀ cl : List Str, ValidChunks cl →
    ValidChunks (capPartsFirst cl) := by
  intro cl
  induction cl with
  | nil => intro _; exact trivial
  | cons p rest ih =>
    intro hv
    obtain ⟨hne, huni, hadj, hrest⟩ := hv
    rw [capPartsFirst]
    by_cases hh : headAlpha p = true
    · rw [if_pos hh]
      refine ⟨capChunk_ne_nil p hne, uniform_capChunk p huni, ?_, hrest⟩
      rw [chunkClass_capChunk]
      exact hadj
    · rw [if_neg hh]
      refine ⟨hne, huni, ?_, ih hrest⟩
      cases rest with
      | nil => exact trivial
      | cons q rest2 =>
        rw [capPartsFirst]
        by_cases hq : headAlpha q = true
        · rw [if_pos hq]
          show chunkClass (capChunk q) ≠ chunkClass p
          rw [chunkClass_capChunk]
          exact hadj
        · rw [if_neg hq]
          exact hadj

theorem capPartsFirst_idem : ∀ cl : List Str,
    capPartsFirst (capPartsFirst cl) = capPartsFirst cl := by
  intro cl
  induction cl with
  | nil => rfl
  | cons p rest ih =>
    by_cases hh : headAlpha p = true
    · rw [capPartsFirst, if_pos hh, capPartsFirst, if_pos (headAlpha_capChunk p hh),
        capChunk_capChunk]
    · rw [capPartsFirst, if_neg hh, capPartsFirst, if_neg hh, ih]

theorem map_upperC_idem (s : Str) : (s.map upperC).map upperC = s.map upperC := by
  rw [List.map_map]
  apply List.map_congr_left
  intro a _
  exact upperC_upperC a

theorem map_lowerC_idem (s : Str) : (s.map lowerC).map lowerC = s.map lowerC := by
  rw [List.map_map]
  apply List.map_congr_left
  intro a _
  exact lowerC_lowerC a

/-- C8: casing re-application is idempotent: re-applying the same reference
casing to an already-cased candidate returns it unchanged, in all three
branches (all-upper reference, all-lower reference, and the
capitalize-first-alphabetic-run branch for mixed references). -/
theorem reapply_case_idempotent (s ref : Str) :
    reapplyCase (reapplyCase s ref) ref = reapplyCase s ref := by
  by_cases h1 : isupperS ref = true
  · simp only [reapplyCase, h1, if_true]
    exact map_upperC_idem s
  · by_cases h2 : islowerS ref = true
    · simp [reapplyCase, h1, h2]
      intro a _
      exact lowerC_lowerC a
    · simp [reapplyCase, h1, h2]
      rw [splitRuns_flatten_of_valid _ (valid_capPartsFirst _ (valid_splitRuns s)),
        capPartsFirst_idem]

end WordWizard
